import Mathlib

/-!
Verification of the git-get retrieval pipeline (src/main.rs).

The Rust source is shallowly embedded: strings are lists of characters,
the filesystem is a tree of nodes, git subprocess outcomes are supplied by
an environment function, and every stateful routine becomes a pure
function from its inputs (plus environment) to its trace and result.
-/

set_option autoImplicit false

namespace GitGet

deriving instance DecidableEq for Except

/-- Characters of a Rust string. -/
abbrev Str := List Char

/-- Rust str.split(sep) for a one-character separator: splits at every
occurrence, keeping empty fields. -/
def splitChar (sep : Char) : Str → List Str
  | [] => [[]]
  | c :: cs =>
    match splitChar sep cs with
    | [] => [[c]]
    | r :: rs => if c = sep then [] :: r :: rs else (c :: r) :: rs

/-- Rust slice.join(sep) for a one-character separator. -/
def joinSep (sep : Char) : List Str → Str
  | [] => []
  | [x] => x
  | x :: y :: t => x ++ sep :: joinSep sep (y :: t)

/-- Rust str.contains(pat) for a pattern string. -/
def containsSub (pat : Str) : Str → Bool
  | [] => pat.isEmpty
  | c :: cs => pat.isPrefixOf (c :: cs) || containsSub pat cs

/-- Worker for Rust str.split(pat): scans the text, emitting a field at
each non-overlapping occurrence of the pattern; `skip` counts pattern
characters still to be consumed after a match. -/
def splitGo (pat : Str) : Str → Str → Nat → List Str
  | [], acc, _ => [acc.reverse]
  | _ :: cs, acc, Nat.succ k => splitGo pat cs acc k
  | c :: cs, acc, 0 =>
    if pat.isPrefixOf (c :: cs) then
      acc.reverse :: splitGo pat cs [] (pat.length - 1)
    else
      splitGo pat cs (c :: acc) 0

/-- Rust str.split(pat) for a nonempty pattern string. -/
def splitOnList (pat s : Str) : List Str := splitGo pat s [] 0

/-- No occurrence of the pattern starts inside `pre` when the text
`pre ++ pat ++ rest` is scanned left to right: the explicit occurrence
after `pre` is the first match the split finds. -/
def noMatchBefore (pat : Str) : Str → Str → Bool
  | [], _ => true
  | c :: cs, rest => !(pat.isPrefixOf (c :: cs ++ pat ++ rest)) && noMatchBefore pat cs rest

/-- Rust str.trim_end_matches(c) for a one-character pattern: removes all
trailing occurrences of the character. -/
def trimEndChar (c : Char) (s : Str) : Str :=
  (s.reverse.dropWhile (fun x => x == c)).reverse

/-- Worker for repeated pattern stripping at the front, fuelled by the
text length (each successful strip removes at least one character). -/
def stripRepeat (pat : Str) : Nat → Str → Str
  | 0, s => s
  | n + 1, s =>
    if pat ≠ [] ∧ pat.isPrefixOf s = true then stripRepeat pat n (s.drop pat.length)
    else s

/-- Rust str.trim_start_matches(pat). -/
def trimStartList (pat s : Str) : Str := stripRepeat pat s.length s

/-- Rust str.trim_end_matches(pat). -/
def trimEndList (pat s : Str) : Str :=
  (stripRepeat pat.reverse s.length s.reverse).reverse

/-- Rust char::is_whitespace: the Unicode White_Space property
(U+0009..U+000D, U+0020, U+0085, U+00A0, U+1680, U+2000..U+200A,
U+2028, U+2029, U+202F, U+205F, U+3000). -/
def isRustWhitespace (c : Char) : Bool :=
  decide ((0x9 ≤ c.toNat ∧ c.toNat ≤ 0xD) ∨ c.toNat = 0x20 ∨ c.toNat = 0x85 ∨
    c.toNat = 0xA0 ∨ c.toNat = 0x1680 ∨ (0x2000 ≤ c.toNat ∧ c.toNat ≤ 0x200A) ∨
    c.toNat = 0x2028 ∨ c.toNat = 0x2029 ∨ c.toNat = 0x202F ∨ c.toNat = 0x205F ∨
    c.toNat = 0x3000)

/-- Rust str.trim(): strip Unicode whitespace from both ends. -/
def trimStr (s : Str) : Str :=
  ((s.dropWhile isRustWhitespace).reverse.dropWhile isRustWhitespace).reverse

/-- Rust str.lines(): split on newline, drop the final empty field that a
trailing newline produces, and strip one trailing carriage return per
line. -/
def linesOf (s : Str) : List Str :=
  let ps := splitChar '\n' s
  (if ps.getLast? = some [] then ps.dropLast else ps).map
    (fun l => if l.getLast? = some '\r' then l.dropLast else l)

def ghStr : Str := "github.com".toList
def ghSlashStr : Str := "github.com/".toList
def slashTreeSlashStr : Str := "/tree/".toList
def treeStr : Str := "tree".toList
def blobStr : Str := "blob".toList
def dotGitStr : Str := ".git".toList
def mainStr : Str := "main".toList
def masterStr : Str := "master".toList
def downloadStr : Str := "download".toList
def httpsStr : Str := "https://".toList
def gitAtStr : Str := "git@".toList
def ghUrlStr : Str := "https://github.com/".toList
def dotSlashStr : Str := "./".toList
def addedComment : Str := "# Added by git-get".toList

/-- Errors of the tool, one constructor per bail site of src/main.rs;
`ctx` mirrors anyhow context wrapping around an inner error. -/
inductive GGError where
  | missingInput
  | notGithubUrl (url : Str)
  | cannotParseUrl (url : Str)
  | urlTooShort (url : Str)
  | destIsFile (dest : Str)
  | destNotEmpty (dest : Str)
  | invalidRepoFormat (repo : Str)
  | gitFailed (args : List Str) (stderr : Str)
  | subpathNotFound (p : Str)
  | copyFailed
  | ctx (msg : Str) (e : GGError)
deriving DecidableEq

/-- Information extracted from a GitHub URL (struct ParsedGitHubUrl). -/
structure ParsedGitHubUrl where
  repo : Str
  branch : Option Str
  path : Option Str
deriving DecidableEq

/-- The branch and path extraction of parse_github_url (src/main.rs lines
201-216) over the split segments: a third segment equal to "tree" or
"blob" makes the fourth segment the branch and the remaining segments,
joined by "/", the path. -/
def branchPathOf (segments : List Str) : Option Str × Option Str :=
  if 2 < segments.length then
    if segments[2]?.getD [] = treeStr ∨ segments[2]?.getD [] = blobStr then
      if 3 < segments.length then
        (some (segments[3]?.getD []),
         if 4 < segments.length then some (joinSep '/' (segments.drop 4)) else none)
      else (none, none)
    else (none, none)
  else (none, none)

/-- Model of parse_github_url from src/main.rs. -/
def parse_github_url (url0 : Str) : Except GGError ParsedGitHubUrl :=
  let url := trimEndChar '/' url0
  if containsSub ghStr url = false then
    .error (.notGithubUrl url)
  else
    let parts := splitOnList ghSlashStr url
    if parts.length ≠ 2 then
      .error (.cannotParseUrl url)
    else
      let path_part := parts[1]?.getD []
      let segments := splitChar '/' path_part
      if segments.length < 2 then
        .error (.urlTooShort url)
      else
        let owner := segments[0]?.getD []
        let repo_name := trimEndList dotGitStr (segments[1]?.getD [])
        let repo := owner ++ '/' :: repo_name
        let bp : Option Str × Option Str := branchPathOf segments
        .ok ⟨repo, bp.1, bp.2⟩

/-- The command-line arguments (struct Args), already parsed into
primitive optional strings by the CLI shell. -/
structure Args where
  repo : Option Str
  branch : Option Str
  path : Option Str
  dest : Option Str
  token : Option Str
  url : Option Str

/-- Model of parse_input from src/main.rs. -/
def parse_input (args : Args) : Except GGError (Str × Str × Option Str) :=
  match args.url.or args.repo with
  | some url =>
    if containsSub ghStr url = true ∧ containsSub slashTreeSlashStr url = true then
      match parse_github_url url with
      | .error e => .error e
      | .ok parsed =>
        .ok (parsed.repo, (args.branch.or parsed.branch).getD mainStr,
             args.path.or parsed.path)
    else
      .ok (url, args.branch.getD mainStr, args.path)
  | none => .error .missingInput

/-- Model of build_repo_url from src/main.rs. -/
def build_repo_url (repo : Str) : Except GGError Str :=
  if httpsStr.isPrefixOf repo = true ∨ gitAtStr.isPrefixOf repo = true then
    .ok repo
  else
    let parts := splitChar '/' repo
    if parts.length = 2 ∧ parts[0]?.getD [] ≠ [] ∧ parts[1]?.getD [] ≠ [] then
      .ok (ghUrlStr ++ repo ++ dotGitStr)
    else
      .error (.invalidRepoFormat repo)

/-- A filesystem node: a regular file with its contents, or a directory
with its named direct children in directory order. -/
inductive FsNode where
  | file (content : Str)
  | dir (entries : List (Str × FsNode))

/-- Model of check_dest_path_safety from src/main.rs; the argument is the
node found at the destination path, or none when the path is absent. -/
def check_dest_path_safety (node : Option FsNode) (destStr : Str) : Except GGError Unit :=
  match node with
  | none => .ok ()
  | some (.file _) => .error (.destIsFile destStr)
  | some (.dir es) => if 0 < es.length then .error (.destNotEmpty destStr) else .ok ()

mutual

/-- Model of one source node handled by copy_dir_recursive in
src/main.rs: a file is copied byte for byte, a directory is recreated and
recursed into. -/
def copyNode : FsNode → FsNode
  | .file c => .file c
  | .dir es => .dir (copy_dir_recursive es)

/-- Model of copy_dir_recursive from src/main.rs over the listed
directory entries: an entry named ".git" is skipped, every other entry is
copied under its own name. -/
def copy_dir_recursive : List (Str × FsNode) → List (Str × FsNode)
  | [] => []
  | (n, t) :: rest =>
    if n = dotGitStr then copy_dir_recursive rest
    else (n, copyNode t) :: copy_dir_recursive rest

end

/-- First directory entry with the given name, as read_dir exposes it. -/
def findEntry : List (Str × FsNode) → Str → Option FsNode
  | [], _ => none
  | (m, t) :: rest, n => if m = n then some t else findEntry rest n

/-- The node reached from a root by following a list of path components;
none when the path does not exist in the tree. -/
def getPath : FsNode → List Str → Option FsNode
  | t, [] => some t
  | .file _, _ :: _ => none
  | .dir es, n :: p =>
    match findEntry es n with
    | none => none
    | some t => getPath t p

/-- Model of copy_directory from src/main.rs: creates the destination and
copies recursively; reading a non-directory source fails. -/
def copy_directory (src : FsNode) : Except GGError FsNode :=
  match src with
  | .file _ => .error .copyFailed
  | .dir es => .ok (.dir (copy_dir_recursive es))

/-- Outcome of running one git command in the workspace: none is
success, some stderr is a non-zero exit with that diagnostic text. -/
abbrev GitEnv := List Str → Option Str

def argInit : List Str := ["init".toList]
def argRemote (url : Str) : List Str :=
  ["remote".toList, "add".toList, "origin".toList, url]
def argConfig : List Str :=
  ["config".toList, "core.sparseCheckout".toList, "true".toList]
def fetchArgs (b : Str) : List Str :=
  ["fetch".toList, "--depth=1".toList, "origin".toList, b]
def argCheckout : List Str := ["checkout".toList, "FETCH_HEAD".toList]
def fetchFailMsg : Str := "无法拉取仓库，请检查仓库地址和分支名是否正确".toList

/-- Model of run_git_command from src/main.rs. -/
def run_git_command (env : GitEnv) (args : List Str) : Except GGError Unit :=
  match env args with
  | none => .ok ()
  | some stderr => .error (.gitFailed args stderr)

/-- One traced git invocation. -/
def runGitT (env : GitEnv) (args : List Str) : List (List Str) × Except GGError Unit :=
  ([args], run_git_command env args)

/-- Sequencing of traced steps: a failed step short-circuits, traces of
executed steps are concatenated in order. -/
def seqT (a : List (List Str) × Except GGError Unit)
    (b : Unit → List (List Str) × Except GGError Unit) :
    List (List Str) × Except GGError Unit :=
  match a with
  | (t, .error e) => (t, .error e)
  | (t, .ok _) => (t ++ (b ()).1, (b ()).2)

/-- Anyhow-style context wrapping of a traced step. -/
def ctxT (msg : Str) (a : List (List Str) × Except GGError Unit) :
    List (List Str) × Except GGError Unit :=
  (a.1, a.2.mapError (GGError.ctx msg))

/-- Model of clone_repository from src/main.rs, recording every git
invocation in order alongside the result. -/
def clone_repository (env : GitEnv) (url branch : Str) (subdir : Option Str) :
    List (List Str) × Except GGError Unit :=
  seqT (runGitT env argInit) fun _ =>
  seqT (runGitT env (argRemote url)) fun _ =>
  seqT (match subdir with
        | some _ => runGitT env argConfig
        | none => ([], .ok ())) fun _ =>
  match runGitT env (fetchArgs branch) with
  | (t, .error e) =>
    if branch = mainStr then
      seqT (t, .ok ()) fun _ =>
      seqT (ctxT fetchFailMsg (runGitT env (fetchArgs masterStr))) fun _ =>
      runGitT env argCheckout
    else
      (t, .error (.ctx fetchFailMsg e))
  | (t, .ok _) =>
    seqT (t, .ok ()) fun _ =>
    runGitT env argCheckout

/-- One scan step of the already-registered check in add_to_gitignore:
true when this ignore-file line registers the normalized path. -/
def lineMatches (norm l : Str) : Bool :=
  let t := trimStr l
  if t.head? = some '#' then false
  else if t = [] then false
  else if t = norm ∨ t = dotSlashStr ++ norm then true
  else false

/-- Model of add_to_gitignore from src/main.rs as a transformer of the
ignore-file state (none when the file is absent). -/
def add_to_gitignore (destPath : Str) (st : Option Str) : Option Str :=
  match st with
  | none => none
  | some content =>
    let normalized := trimStartList dotSlashStr destPath
    if (linesOf content).any (lineMatches normalized) then some content
    else
      let c1 :=
        if content ≠ [] ∧ content.getLast? ≠ some '\n' then content ++ ['\n']
        else content
      some (c1 ++ '\n' :: (addedComment ++ '\n' :: (normalized ++ ['\n'])))

/-- The environment of one run: the filesystem node at each candidate
destination path, the git subprocess outcomes, the workspace tree
produced by a successful staging, and the ignore-file state. -/
structure World where
  destFs : Str → Option FsNode
  git : GitEnv
  tempTree : List (Str × FsNode)
  ignore : Option Str

/-- Externally visible effects of one run, in order. -/
inductive Event where
  | git (args : List Str)
  | mkTemp
  | copied
deriving DecidableEq

/-- Destination default of src/main.rs lines 71-84: an explicit --dest,
else the last segment of the subpath, else the repository name with a
trailing ".git" stripped. -/
def resolveDest (args : Args) (repo : Str) (path : Option Str) : Str :=
  match args.dest with
  | some d => d
  | none =>
    match path with
    | some p => ((splitChar '/' p).getLast?).getD downloadStr
    | none => trimEndList dotGitStr (((splitChar '/' repo).getLast?).getD downloadStr)

/-- Model of run from src/main.rs: the event trace (git subprocesses,
temporary-workspace creation, the copy) alongside the final outcome (the
materialized destination tree and the final ignore-file state). -/
def run (w : World) (args : Args) :
    List Event × Except GGError (FsNode × Option Str) :=
  match parse_input args with
  | .error e => ([], .error e)
  | .ok (repo, branch, path) =>
    let dest := resolveDest args repo path
    match build_repo_url repo with
    | .error e => ([], .error e)
    | .ok url =>
      match check_dest_path_safety (w.destFs dest) dest with
      | .error e => ([], .error e)
      | .ok _ =>
        let cl := clone_repository w.git url branch path
        let trace := Event.mkTemp :: cl.1.map Event.git
        match cl.2 with
        | .error e => (trace, .error e)
        | .ok _ =>
          let srcNode : Except GGError FsNode :=
            match path with
            | some p =>
              match getPath (.dir w.tempTree) (splitChar '/' p) with
              | none => .error (.subpathNotFound p)
              | some src => .ok src
            | none => .ok (.dir w.tempTree)
          match srcNode with
          | .error e => (trace, .error e)
          | .ok src =>
            match copy_directory src with
            | .error e => (trace ++ [Event.copied], .error e)
            | .ok t => (trace ++ [Event.copied], .ok (t, add_to_gitignore dest w.ignore))

/-! Helper lemmas about the string primitives. -/

theorem splitChar_ne_nil (sep : Char) (s : Str) : splitChar sep s ≠ [] := by
  cases s with
  | nil => simp [splitChar]
  | cons c cs =>
    simp only [splitChar]
    cases h : splitChar sep cs with
    | nil => simp
    | cons r rs =>
      show (if c = sep then [] :: r :: rs else (c :: r) :: rs) ≠ []
      split <;> simp

theorem splitChar_append (sep : Char) (a b : Str) :
    splitChar sep (a ++ sep :: b) = splitChar sep a ++ splitChar sep b := by
  induction a with
  | nil =>
    show splitChar sep (sep :: b) = splitChar sep [] ++ splitChar sep b
    cases h : splitChar sep b with
    | nil => exact absurd h (splitChar_ne_nil sep b)
    | cons r rs => simp [splitChar, h]
  | cons c a ih =>
    show splitChar sep (c :: (a ++ sep :: b)) = splitChar sep (c :: a) ++ splitChar sep b
    obtain ⟨r, rs, h⟩ : ∃ r rs, splitChar sep a = r :: rs := by
      cases h : splitChar sep a with
      | nil => exact absurd h (splitChar_ne_nil sep a)
      | cons r rs => exact ⟨r, rs, rfl⟩
    by_cases hc : c = sep
    · subst hc; simp [splitChar, ih, h]
    · simp [splitChar, ih, h, hc]

theorem splitChar_no_sep (sep : Char) (s : Str) (h : sep ∉ s) : splitChar sep s = [s] := by
  induction s with
  | nil => rfl
  | cons c cs ih =>
    have hc : ¬ c = sep := fun e => h (by rw [← e]; exact List.mem_cons_self c cs)
    have ih' := ih (fun m => h (List.mem_cons_of_mem c m))
    simp [splitChar, ih', hc]

theorem splitChar_join (sep : Char) (ps : List Str) (hne : ps ≠ [])
    (h : ∀ p ∈ ps, sep ∉ p) : splitChar sep (joinSep sep ps) = ps := by
  induction ps with
  | nil => exact absurd rfl hne
  | cons x t ih =>
    cases t with
    | nil => exact splitChar_no_sep sep x (h x (List.mem_cons_self x []))
    | cons y t' =>
      show splitChar sep (x ++ sep :: joinSep sep (y :: t')) = x :: y :: t'
      rw [splitChar_append, splitChar_no_sep sep x (h x (List.mem_cons_self x _)),
        ih (by simp) (fun p hp => h p (List.mem_cons_of_mem x hp))]
      rfl

theorem isPrefixOf_append_self (l t : Str) : l.isPrefixOf (l ++ t) = true := by
  induction l with
  | nil => simp [List.isPrefixOf]
  | cons a l ih => simp [List.isPrefixOf]

theorem containsSub_of_pfx (pat s : Str) (h : pat.isPrefixOf s = true) :
    containsSub pat s = true := by
  cases s with
  | nil =>
    cases pat with
    | nil => rfl
    | cons p ps => simp [List.isPrefixOf] at h
  | cons c cs => simp [containsSub, h]

theorem splitGo_skip (pat : Str) (xs rest acc : Str) :
    splitGo pat (xs ++ rest) acc xs.length = splitGo pat rest acc 0 := by
  induction xs generalizing acc with
  | nil => rfl
  | cons c xs ih => simp [splitGo, ih acc]

theorem splitGo_no_match (pat : Str) (s acc : Str) (h : containsSub pat s = false) :
    splitGo pat s acc 0 = [acc.reverse ++ s] := by
  induction s generalizing acc with
  | nil => simp [splitGo]
  | cons c cs ih =>
    simp only [containsSub, Bool.or_eq_false_iff] at h
    obtain ⟨hp, hc⟩ := h
    have hstep : splitGo pat (c :: cs) acc 0 = splitGo pat cs (c :: acc) 0 := by
      simp [splitGo, hp]
    rw [hstep, ih (c :: acc) hc]
    simp

theorem splitOnList_pfx (p : Char) (ps rest : Str)
    (h : containsSub (p :: ps) rest = false) :
    splitOnList (p :: ps) ((p :: ps) ++ rest) = [[], rest] := by
  have hpf : (p :: ps).isPrefixOf (p :: (ps ++ rest)) = true :=
    isPrefixOf_append_self (p :: ps) rest
  show splitGo (p :: ps) (p :: (ps ++ rest)) [] 0 = [[], rest]
  rw [splitGo]
  simp only [hpf, if_true]
  rw [show (p :: ps).length - 1 = ps.length from by simp]
  rw [splitGo_skip, splitGo_no_match _ _ _ h]
  simp

theorem trimEndChar_eq_self (c : Char) (s : Str) (h : s.getLast? ≠ some c) :
    trimEndChar c s = s := by
  show (List.dropWhile (fun x => x == c) s.reverse).reverse = s
  cases hr : s.reverse with
  | nil =>
    have : s = [] := by simpa using congrArg List.reverse hr
    simp [this]
  | cons a t =>
    have hla : s.getLast? = some a := by
      rw [← List.head?_reverse, hr]; rfl
    have ha : (a == c) = false := by
      refine beq_eq_false_iff_ne.mpr (fun e => h ?_)
      rw [hla, e]
    have hdw : List.dropWhile (fun x => x == c) (a :: t) = a :: t := by
      simp [List.dropWhile_cons, ha]
    rw [hdw, ← hr, List.reverse_reverse]

theorem findEntry_copy (es : List (Str × FsNode)) (n : Str) :
    findEntry (copy_dir_recursive es) n =
      if n = dotGitStr then none else (findEntry es n).map copyNode := by
  induction es with
  | nil => simp [copy_dir_recursive, findEntry]
  | cons e rest ih =>
    obtain ⟨m, t⟩ := e
    by_cases hm : m = dotGitStr
    · subst hm
      by_cases hn : n = dotGitStr
      · subst hn
        simp [copy_dir_recursive, ih]
      · simp [copy_dir_recursive, findEntry, ih, hn, Ne.symm hn]
    · by_cases hmn : m = n
      · subst hmn
        simp [copy_dir_recursive, findEntry, hm]
      · simp [copy_dir_recursive, findEntry, hm, hmn, ih]

/-- Claim C1: the recursive copy preserves the relative structure of every
file and directory while skipping every directory entry named ".git" at
any depth: a path is present in the copy exactly when it is present in
the source and has no ".git" component, and it then carries the copied
source subtree, so the destination holds no version-control metadata. -/
theorem claim_C1_copy_skips_git (t : FsNode) (p : List Str) :
    getPath (copyNode t) p =
      if dotGitStr ∈ p then none else (getPath t p).map copyNode := by
  induction p generalizing t with
  | nil => simp [getPath]
  | cons n p ih =>
    cases t with
    | file c =>
      have h1 : getPath (copyNode (.file c)) (n :: p) = none := by
        simp [copyNode, getPath]
      rw [h1]
      split <;> simp [getPath]
    | dir es =>
      have hcd : copyNode (.dir es) = .dir (copy_dir_recursive es) := by
        simp [copyNode]
      by_cases hn : n = dotGitStr
      · subst hn
        have h1 : getPath (FsNode.dir (copy_dir_recursive es)) (dotGitStr :: p) = none := by
          simp [getPath, findEntry_copy]
        rw [hcd, h1, if_pos (List.mem_cons_self _ _)]
      · have hfe := findEntry_copy es n
        rw [if_neg hn] at hfe
        have hmem : (dotGitStr ∈ n :: p) = (dotGitStr ∈ p) := by
          simp [List.mem_cons, Ne.symm hn]
        cases hfs : findEntry es n with
        | none =>
          have h1 : getPath (FsNode.dir (copy_dir_recursive es)) (n :: p) = none := by
            simp [getPath, hfe, hfs]
          have h2 : getPath (FsNode.dir es) (n :: p) = none := by
            simp [getPath, hfs]
          rw [hcd, h1, h2]
          split <;> simp
        | some t' =>
          have h1 : getPath (FsNode.dir (copy_dir_recursive es)) (n :: p) =
              getPath (copyNode t') p := by
            simp [getPath, hfe, hfs]
          have h2 : getPath (FsNode.dir es) (n :: p) = getPath t' p := by
            simp [getPath, hfs]
          rw [hcd, h1, h2, ih t']
          simp only [hmem]

/-- Claim C4: the Destination Guard passes exactly on an absent path or an
existing empty directory; it fails with the is-file error exactly when the
path exists and is not a directory, with the not-empty error exactly when
it is a directory with at least one entry, and the two failure kinds are
distinct. -/
theorem claim_C4_dest_guard (d : Option FsNode) (s : Str) :
    (check_dest_path_safety d s = .ok () ↔ d = none ∨ d = some (.dir [])) ∧
    (∀ c, d = some (.file c) → check_dest_path_safety d s = .error (.destIsFile s)) ∧
    (∀ es, d = some (.dir es) → es ≠ [] →
      check_dest_path_safety d s = .error (.destNotEmpty s)) ∧
    GGError.destIsFile s ≠ GGError.destNotEmpty s := by
  refine ⟨?_, ?_, ?_, by simp⟩
  · cases d with
    | none => simp [check_dest_path_safety]
    | some node =>
      cases node with
      | file c => simp [check_dest_path_safety]
      | dir es => cases es <;> simp [check_dest_path_safety]
  · rintro c rfl
    simp [check_dest_path_safety]
  · rintro es rfl hne
    simp [check_dest_path_safety, List.length_pos.mpr hne]

/-- Witness for claim C4 at concrete inputs: a regular file is rejected
with the is-file error. -/
theorem claim_C4_dest_guard_witness :
    check_dest_path_safety (some (.file [])) mainStr = .error (.destIsFile mainStr) :=
  (claim_C4_dest_guard (some (.file [])) mainStr).2.1 [] rfl

/-- Claim C10: the guard counts hidden entries: a directory whose direct
children are all dot-prefixed is still rejected as non-empty, and the
guard's verdict depends only on the number of direct children. -/
theorem claim_C10_hidden_entries (s : Str) (es : List (Str × FsNode))
    (hne : es ≠ []) (_hh : ∀ e ∈ es, e.1.head? = some '.') :
    check_dest_path_safety (some (.dir es)) s = .error (.destNotEmpty s) ∧
    ∀ es' : List (Str × FsNode), es'.length = es.length →
      check_dest_path_safety (some (.dir es')) s =
        check_dest_path_safety (some (.dir es)) s := by
  have hpos : 0 < es.length := List.length_pos.mpr hne
  constructor
  · simp [check_dest_path_safety, hpos]
  · intro es' hlen
    simp [check_dest_path_safety, hlen]

/-- Witness for claim C10: a directory holding only ".hidden" fails the
guard as non-empty. -/
theorem claim_C10_hidden_entries_witness :
    ([((".hidden").toList, FsNode.file [])] ≠ ([] : List (Str × FsNode))) ∧
    check_dest_path_safety (some (.dir [((".hidden").toList, FsNode.file [])])) [] =
      .error (.destNotEmpty []) :=
  ⟨by simp,
   (claim_C10_hidden_entries [] [((".hidden").toList, FsNode.file [])]
      (by simp) (by decide)).1⟩

/-- Claim C7: locator normalization passes full-URL and SSH-style
locators through unchanged, maps every two-non-empty-segment locator to
the canonical clone URL built from those segments, and rejects every
other shape with the invalid-locator error. -/
theorem claim_C7_build_repo_url :
    (∀ r : Str, (httpsStr.isPrefixOf r = true ∨ gitAtStr.isPrefixOf r = true) →
        build_repo_url r = .ok r) ∧
    (∀ o n : Str, o ≠ [] → n ≠ [] → '/' ∉ o → '/' ∉ n →
        ¬ (httpsStr.isPrefixOf (o ++ '/' :: n) = true ∨
           gitAtStr.isPrefixOf (o ++ '/' :: n) = true) →
        build_repo_url (o ++ '/' :: n) = .ok (ghUrlStr ++ (o ++ '/' :: n) ++ dotGitStr)) ∧
    (∀ r : Str,
        ¬ (httpsStr.isPrefixOf r = true ∨ gitAtStr.isPrefixOf r = true) →
        ¬ ((splitChar '/' r).length = 2 ∧ (splitChar '/' r)[0]?.getD [] ≠ [] ∧
           (splitChar '/' r)[1]?.getD [] ≠ []) →
        build_repo_url r = .error (.invalidRepoFormat r)) := by
  refine ⟨?_, ?_, ?_⟩
  · intro r hp
    simp only [build_repo_url]
    rw [if_pos hp]
  · intro o n ho hn hso hsn hp
    have hsplit : splitChar '/' (o ++ '/' :: n) = [o, n] := by
      rw [splitChar_append, splitChar_no_sep '/' o hso, splitChar_no_sep '/' n hsn]
      rfl
    simp only [build_repo_url, hsplit]
    rw [if_neg hp, if_pos ⟨by rfl, by simpa using ho, by simpa using hn⟩]
  · intro r hp hbad
    simp only [build_repo_url]
    rw [if_neg hp, if_neg hbad]

/-- Witness for claim C7 at concrete inputs: SSH-style pass-through, the
canonical URL for a two-segment locator, rejection of a three-segment
locator. -/
theorem claim_C7_build_repo_url_witness :
    build_repo_url ("git@host:o/r.git").toList = .ok ("git@host:o/r.git").toList ∧
    build_repo_url (("acme").toList ++ '/' :: ("tools").toList) =
      .ok (ghUrlStr ++ (("acme").toList ++ '/' :: ("tools").toList) ++ dotGitStr) ∧
    build_repo_url ("a/b/c").toList = .error (.invalidRepoFormat ("a/b/c").toList) :=
  ⟨claim_C7_build_repo_url.1 _ (by decide),
   claim_C7_build_repo_url.2.1 ("acme").toList ("tools").toList
     (by decide) (by decide) (by decide) (by decide) (by decide),
   claim_C7_build_repo_url.2.2 _ (by decide) (by decide)⟩

theorem containsSub_append (pat a s : Str) (h : containsSub pat s = true) :
    containsSub pat (a ++ s) = true := by
  induction a with
  | nil => simpa using h
  | cons c a ih => simp [containsSub, ih]

theorem splitGo_pre (p : Char) (ps pre rest acc : Str)
    (hcon : containsSub (p :: ps) rest = false) :
    noMatchBefore (p :: ps) pre rest = true →
    splitGo (p :: ps) (pre ++ (p :: ps) ++ rest) acc 0 = [acc.reverse ++ pre, rest] := by
  induction pre generalizing acc with
  | nil =>
    intro _
    have hpf : (p :: ps).isPrefixOf (p :: (ps ++ rest)) = true :=
      isPrefixOf_append_self (p :: ps) rest
    show splitGo (p :: ps) (p :: (ps ++ rest)) acc 0 = [acc.reverse ++ [], rest]
    rw [splitGo]
    simp only [hpf, if_true]
    rw [show (p :: ps).length - 1 = ps.length from by simp]
    rw [splitGo_skip, splitGo_no_match _ _ _ hcon]
    simp
  | cons c cs ih =>
    intro hno
    simp only [noMatchBefore, Bool.and_eq_true, Bool.not_eq_true'] at hno
    obtain ⟨hp1, hp2⟩ := hno
    have hp1' : (p :: ps).isPrefixOf (c :: (cs ++ (p :: ps) ++ rest)) = false := hp1
    show splitGo (p :: ps) (c :: (cs ++ (p :: ps) ++ rest)) acc 0 =
      [acc.reverse ++ (c :: cs), rest]
    have hstep : splitGo (p :: ps) (c :: (cs ++ (p :: ps) ++ rest)) acc 0 =
        splitGo (p :: ps) (cs ++ (p :: ps) ++ rest) (c :: acc) 0 := by
      rw [splitGo]
      rw [if_neg (by rw [hp1']; simp)]
    rw [hstep, ih (c :: acc) hp2]
    simp

theorem splitOnList_pre (p : Char) (ps pre rest : Str)
    (hno : noMatchBefore (p :: ps) pre rest = true)
    (hcon : containsSub (p :: ps) rest = false) :
    splitOnList (p :: ps) (pre ++ (p :: ps) ++ rest) = [pre, rest] := by
  have h := splitGo_pre p ps pre rest [] hcon hno
  simpa [splitOnList] using h

theorem url_facts (pre : Str) (segs : List Str) (hne : segs ≠ [])
    (hsep : ∀ q ∈ segs, '/' ∉ q)
    (hno : noMatchBefore ghSlashStr pre (joinSep '/' segs) = true)
    (hcon : containsSub ghSlashStr (joinSep '/' segs) = false)
    (hlast : (pre ++ ghSlashStr ++ joinSep '/' segs).getLast? ≠ some '/') :
    trimEndChar '/' (pre ++ ghSlashStr ++ joinSep '/' segs) =
      pre ++ ghSlashStr ++ joinSep '/' segs ∧
    containsSub ghStr (pre ++ ghSlashStr ++ joinSep '/' segs) = true ∧
    splitOnList ghSlashStr (pre ++ ghSlashStr ++ joinSep '/' segs) =
      [pre, joinSep '/' segs] ∧
    splitChar '/' (joinSep '/' segs) = segs := by
  refine ⟨trimEndChar_eq_self _ _ hlast, ?_, ?_, splitChar_join _ _ hne hsep⟩
  · rw [List.append_assoc]
    apply containsSub_append
    apply containsSub_of_pfx
    have he : ghSlashStr ++ joinSep '/' segs = ghStr ++ ('/' :: joinSep '/' segs) := by
      have h0 : ghSlashStr = ghStr ++ ['/'] := by decide
      rw [h0, List.append_assoc]
      rfl
    rw [he]
    exact isPrefixOf_append_self _ _
  · have hgh : ghSlashStr = 'g' :: ("ithub.com/").toList := by decide
    rw [hgh] at hno hcon ⊢
    exact splitOnList_pre _ _ _ _ hno hcon

theorem parse_github_url_eval (url0 pre : Str) (segs : List Str)
    (h1 : trimEndChar '/' url0 = url0)
    (h2 : containsSub ghStr url0 = true)
    (h3 : splitOnList ghSlashStr url0 = [pre, joinSep '/' segs])
    (h4 : splitChar '/' (joinSep '/' segs) = segs)
    (h5 : 2 ≤ segs.length) :
    parse_github_url url0 =
      .ok ⟨(segs[0]?.getD []) ++ '/' :: trimEndList dotGitStr (segs[1]?.getD []),
        (branchPathOf segs).1, (branchPathOf segs).2⟩ := by
  simp only [parse_github_url]
  rw [h1]
  rw [if_neg (by rw [h2]; simp)]
  rw [h3]
  rw [if_neg (by simp)]
  have hidx : ([pre, joinSep '/' segs])[1]?.getD ([] : Str) = joinSep '/' segs := rfl
  rw [hidx, h4]
  rw [if_neg (by omega)]

theorem branchPathOf_tree (owner name bname : Str) (ps : List Str) (h : ps ≠ []) :
    branchPathOf (owner :: name :: treeStr :: bname :: ps) =
      (some bname, some (joinSep '/' ps)) := by
  have hp : 0 < ps.length := List.length_pos.mpr h
  unfold branchPathOf
  simp only [List.length_cons]
  rw [if_pos (by omega)]
  have e2 : (owner :: name :: treeStr :: bname :: ps)[2]?.getD ([] : Str) = treeStr := by simp
  rw [e2, if_pos (Or.inl rfl), if_pos (by omega)]
  have e3 : (owner :: name :: treeStr :: bname :: ps)[3]?.getD ([] : Str) = bname := by simp
  have e4 : List.drop 4 (owner :: name :: treeStr :: bname :: ps) = ps := by simp
  rw [e3, if_pos (by omega), e4]

theorem branchPathOf_flat (s0 s1 : Str) (rest : List Str)
    (h : (∀ x, rest.head? = some x → x ≠ treeStr ∧ x ≠ blobStr) ∨ rest.length ≤ 1) :
    branchPathOf (s0 :: s1 :: rest) = (none, none) := by
  cases rest with
  | nil => simp [branchPathOf]
  | cons r2 rest' =>
    by_cases htb : (s0 :: s1 :: r2 :: rest')[2]?.getD [] = treeStr ∨
        (s0 :: s1 :: r2 :: rest')[2]?.getD [] = blobStr
    · have hr2 : r2 = treeStr ∨ r2 = blobStr := by simpa using htb
      have hre : rest' = [] := by
        rcases h with h | h
        · rcases hr2 with h2 | h2
          · exact absurd h2 ((h r2 rfl).1)
          · exact absurd h2 ((h r2 rfl).2)
        · have hl0 : rest'.length = 0 := by simpa using h
          exact List.length_eq_zero.mp hl0
      subst hre
      unfold branchPathOf
      rw [if_pos (by simp)]
      rw [if_pos htb]
      rw [if_neg (by simp)]
    · unfold branchPathOf
      rw [if_pos (by simp)]
      rw [if_neg htb]

/-- Claim C3 counterexample: a browsable URL of the claimed shape whose
subpath holds a segment named after the host marker makes the split on
the marker yield three parts, so parsing fails with the URL-parse error
instead of yielding the locator, branch and subpath the claim promises. -/
theorem claim_C3_parse_url_counterexample :
    parse_github_url ("https://github.com/o/r/tree/b/github.com/x").toList =
      .error (.cannotParseUrl ("https://github.com/o/r/tree/b/github.com/x").toList) ∧
    parse_github_url ("https://github.com/o/r/tree/b/github.com/x").toList ≠
      .ok ⟨("o/r").toList, some ("b").toList, some ("github.com/x").toList⟩ :=
  ⟨by decide, by decide⟩

/-- Claim C3 (amended): for browsable URLs of the shape
[scheme]host/owner/name/tree/branch/a/b/c — with no trailing slash, and
in which the host marker followed by a slash occurs exactly once, so the
split on the marker yields exactly two parts — parsing yields the
owner/name locator with any trailing ".git" stripped from the name, the
branch, and the remaining segments joined by "/" as the subpath; and
when the third segment after the marker is not "tree"/"blob", or no
fourth segment exists, parsing yields no branch and no subpath. -/
theorem claim_C3_parse_url_amended :
    (∀ pre owner name bname : Str, ∀ ps : List Str,
      '/' ∉ owner → '/' ∉ name → '/' ∉ bname → (∀ q ∈ ps, '/' ∉ q) → ps ≠ [] →
      noMatchBefore ghSlashStr pre
        (joinSep '/' (owner :: name :: treeStr :: bname :: ps)) = true →
      containsSub ghSlashStr (joinSep '/' (owner :: name :: treeStr :: bname :: ps)) = false →
      (pre ++ ghSlashStr ++
        joinSep '/' (owner :: name :: treeStr :: bname :: ps)).getLast? ≠ some '/' →
      parse_github_url
          (pre ++ ghSlashStr ++ joinSep '/' (owner :: name :: treeStr :: bname :: ps)) =
        .ok ⟨owner ++ '/' :: trimEndList dotGitStr name, some bname, some (joinSep '/' ps)⟩) ∧
    (∀ pre s0 s1 : Str, ∀ rest : List Str,
      '/' ∉ s0 → '/' ∉ s1 → (∀ q ∈ rest, '/' ∉ q) →
      ((∀ x, rest.head? = some x → x ≠ treeStr ∧ x ≠ blobStr) ∨ rest.length ≤ 1) →
      noMatchBefore ghSlashStr pre (joinSep '/' (s0 :: s1 :: rest)) = true →
      containsSub ghSlashStr (joinSep '/' (s0 :: s1 :: rest)) = false →
      (pre ++ ghSlashStr ++ joinSep '/' (s0 :: s1 :: rest)).getLast? ≠ some '/' →
      parse_github_url (pre ++ ghSlashStr ++ joinSep '/' (s0 :: s1 :: rest)) =
        .ok ⟨s0 ++ '/' :: trimEndList dotGitStr s1, none, none⟩) := by
  constructor
  · intro pre owner name bname ps ho hn hb hps hpsne hno hcon hlast
    have hsep : ∀ q ∈ owner :: name :: treeStr :: bname :: ps, '/' ∉ q := by
      intro q hq
      simp only [List.mem_cons] at hq
      rcases hq with rfl | rfl | rfl | rfl | hq
      · exact ho
      · exact hn
      · decide
      · exact hb
      · exact hps q hq
    obtain ⟨f1, f2, f3, f4⟩ := url_facts pre _ (by simp) hsep hno hcon hlast
    rw [parse_github_url_eval _ pre _ f1 f2 f3 f4 (by simp)]
    rw [branchPathOf_tree owner name bname ps hpsne]
    simp
  · intro pre s0 s1 rest h0 h1s hrest hcond hno hcon hlast
    have hsep : ∀ q ∈ s0 :: s1 :: rest, '/' ∉ q := by
      intro q hq
      simp only [List.mem_cons] at hq
      rcases hq with rfl | rfl | hq
      · exact h0
      · exact h1s
      · exact hrest q hq
    obtain ⟨f1, f2, f3, f4⟩ := url_facts pre _ (by simp) hsep hno hcon hlast
    rw [parse_github_url_eval _ pre _ f1 f2 f3 f4 (by simp)]
    rw [branchPathOf_flat s0 s1 rest hcond]
    simp

/-- Witness for the amended claim C3 at concrete URLs: the spec scenario
A URL with its https scheme, and a scheme-prefixed owner/name URL with
no tree segment. -/
theorem claim_C3_parse_url_amended_witness :
    parse_github_url (("https://").toList ++ ghSlashStr ++ joinSep '/'
        (("acme").toList :: ("tools").toList :: treeStr :: ("dev").toList ::
          [("lib").toList, ("util").toList])) =
      .ok ⟨("acme").toList ++ '/' :: trimEndList dotGitStr ("tools").toList,
           some ("dev").toList,
           some (joinSep '/' [("lib").toList, ("util").toList])⟩ ∧
    parse_github_url (("https://").toList ++ ghSlashStr ++
        joinSep '/' (("o").toList :: ("r").toList :: [])) =
      .ok ⟨("o").toList ++ '/' :: trimEndList dotGitStr ("r").toList, none, none⟩ :=
  ⟨claim_C3_parse_url_amended.1 _ _ _ _ _ (by decide) (by decide) (by decide) (by decide)
      (by decide) (by decide) (by decide) (by decide),
   claim_C3_parse_url_amended.2 _ _ _ _ (by decide) (by decide) (by decide)
      (Or.inr (by decide)) (by decide) (by decide) (by decide)⟩

/-- Claim C6 counterexample: a blob URL contains the host marker and a
"blob" path segment, yet the resolver does not parse it as a browsable
URL (which would extract the locator o/r); it hands the whole value
through as the repository locator. -/
theorem claim_C6_resolver_counterexample :
    parse_input ⟨none, none, none, none, none,
        some ("https://github.com/o/r/blob/main/f.txt").toList⟩ =
      .ok (("https://github.com/o/r/blob/main/f.txt").toList, mainStr, none) ∧
    parse_github_url ("https://github.com/o/r/blob/main/f.txt").toList =
      .ok ⟨("o/r").toList, some mainStr, some ("f.txt").toList⟩ ∧
    ("https://github.com/o/r/blob/main/f.txt").toList ≠ ("o/r").toList :=
  ⟨by decide, by decide, by decide⟩

/-- Claim C6 (amended): a picked value containing both the host marker
and a "/tree/" segment is parsed as a browsable URL whose extracted
branch and subpath are defaults overridden by the explicit
--branch and --path arguments; any other value — including blob URLs, which
lack a "/tree/" segment — is treated directly as the repository locator. -/
theorem claim_C6_resolver_amended (args : Args) (u : Str)
    (hu : args.url.or args.repo = some u) :
    (containsSub ghStr u = true → containsSub slashTreeSlashStr u = true →
      parse_input args = (parse_github_url u).map
        (fun pr => (pr.repo, (args.branch.or pr.branch).getD mainStr,
                    args.path.or pr.path))) ∧
    (¬ (containsSub ghStr u = true ∧ containsSub slashTreeSlashStr u = true) →
      parse_input args = .ok (u, args.branch.getD mainStr, args.path)) := by
  constructor
  · intro h1 h2
    simp only [parse_input, hu]
    rw [if_pos ⟨h1, h2⟩]
    cases parse_github_url u with
    | error e => rfl
    | ok pr => rfl
  · intro h
    simp only [parse_input, hu]
    rw [if_neg h]

/-- Witness for the amended claim C6: a tree URL is parsed and a plain
locator is passed through. -/
theorem claim_C6_resolver_amended_witness :
    parse_input ⟨none, none, none, none, none,
        some ("https://github.com/o/r/tree/dev/lib").toList⟩ =
      (parse_github_url ("https://github.com/o/r/tree/dev/lib").toList).map
        (fun pr => (pr.repo, ((none : Option Str).or pr.branch).getD mainStr,
                    (none : Option Str).or pr.path)) ∧
    parse_input ⟨some ("o/r").toList, none, none, none, none, none⟩ =
      .ok (("o/r").toList, (none : Option Str).getD mainStr, none) :=
  ⟨(claim_C6_resolver_amended
      ⟨none, none, none, none, none, some ("https://github.com/o/r/tree/dev/lib").toList⟩
      _ (by decide)).1 (by decide) (by decide),
   (claim_C6_resolver_amended ⟨some ("o/r").toList, none, none, none, none, none⟩
      _ (by decide)).2 (by decide)⟩

/-- Claim C8 counterexample: with an explicit empty --branch and an
explicit absolute --path, the resolver produces a request whose branch
is empty, violating the claimed invariant. -/
theorem claim_C8_invariant_counterexample :
    ¬ (∀ r b : Str, ∀ p : Option Str,
        parse_input ⟨some ("o/r").toList, some [], some ("/x").toList,
            none, none, none⟩ = .ok (r, b, p) →
        b ≠ [] ∧ ∀ s, p = some s → s ≠ [] ∧ s.head? ≠ some '/') := by
  intro h
  exact (h ("o/r").toList [] (some ("/x").toList) (by decide)).1 rfl

/-- Claim C8 (amended): every request the resolver produces has a
non-empty branch, and a non-empty subpath with no leading slash when a
subpath is present, provided the explicit --branch (when supplied) is
non-empty, the explicit --path (when supplied) is non-empty with no
leading slash, and the browsable-URL parse of the picked value yields
only such branch and path values. -/
theorem claim_C8_invariant_amended (args : Args) (r b : Str) (p : Option Str)
    (hbr : ∀ s, args.branch = some s → s ≠ [])
    (hpa : ∀ s, args.path = some s → s ≠ [] ∧ s.head? ≠ some '/')
    (hurl : ∀ u pr, args.url.or args.repo = some u → parse_github_url u = .ok pr →
      (∀ s, pr.branch = some s → s ≠ []) ∧
      (∀ s, pr.path = some s → s ≠ [] ∧ s.head? ≠ some '/'))
    (h : parse_input args = .ok (r, b, p)) :
    b ≠ [] ∧ ∀ s, p = some s → s ≠ [] ∧ s.head? ≠ some '/' := by
  cases hu : args.url.or args.repo with
  | none =>
    simp only [parse_input, hu] at h
    exact Except.noConfusion h
  | some u =>
    simp only [parse_input, hu] at h
    by_cases hc : containsSub ghStr u = true ∧ containsSub slashTreeSlashStr u = true
    · rw [if_pos hc] at h
      cases hp : parse_github_url u with
      | error e => rw [hp] at h; exact Except.noConfusion h
      | ok pr =>
        rw [hp] at h
        obtain ⟨hb1, hp1⟩ := hurl u pr hu hp
        simp only [Except.ok.injEq, Prod.mk.injEq] at h
        obtain ⟨-, hb, hpp⟩ := h
        refine ⟨?_, ?_⟩
        · rw [← hb]
          cases ha : args.branch with
          | some s =>
            rw [show (some s).or pr.branch = some s from rfl, Option.getD_some]
            exact hbr s ha
          | none =>
            rw [show (Option.none).or pr.branch = pr.branch from rfl]
            cases hpb : pr.branch with
            | some s =>
              rw [Option.getD_some]
              exact hb1 s hpb
            | none =>
              rw [Option.getD_none]
              decide
        · intro s hs
          rw [← hpp] at hs
          cases ha : args.path with
          | some q2 =>
            rw [ha, show (some q2).or pr.path = some q2 from rfl] at hs
            rw [← Option.some.inj hs]
            exact hpa q2 ha
          | none =>
            rw [ha, show (Option.none).or pr.path = pr.path from rfl] at hs
            exact hp1 s hs
    · rw [if_neg hc] at h
      simp only [Except.ok.injEq, Prod.mk.injEq] at h
      obtain ⟨-, hb, hpp⟩ := h
      refine ⟨?_, ?_⟩
      · rw [← hb]
        cases ha : args.branch with
        | some s =>
          rw [Option.getD_some]
          exact hbr s ha
        | none =>
          rw [Option.getD_none]
          decide
      · intro s hs
        rw [← hpp] at hs
        exact hpa s hs

/-- Witness for the amended claim C8: a plain locator with no explicit
arguments resolves to the non-empty default branch and no subpath. -/
theorem claim_C8_invariant_amended_witness :
    parse_input ⟨some ("o/r").toList, none, none, none, none, none⟩ =
      .ok (("o/r").toList, mainStr, none) ∧
    (mainStr ≠ [] ∧
      ∀ s : Str, (none : Option Str) = some s → s ≠ [] ∧ s.head? ≠ some '/') := by
  refine ⟨by decide, ?_⟩
  refine claim_C8_invariant_amended
    ⟨some ("o/r").toList, none, none, none, none, none⟩
    (("o/r").toList) mainStr none ?_ ?_ ?_ (by decide)
  · intro s hs
    cases hs
  · intro s hs
    cases hs
  · intro u pr hu hp
    have hu' : u = ("o/r").toList := by
      simp only [Option.none_or] at hu
      exact (Option.some.inj hu).symm
    rw [hu'] at hp
    have he : parse_github_url ("o/r").toList =
        .error (.notGithubUrl ("o/r").toList) := by decide
    rw [he] at hp
    cases hp

/-- Claim C2: in a staging run whose init, remote and sparse-config steps
succeed, a failing first fetch is retried exactly once against "master"
and only when the requested branch is the default "main"; failure of any
other fetch, or of that single retry, is fatal and carries the external
tool's diagnostic text inside the fetch-failure context; and no command
is ever invoked twice. -/
theorem claim_C2_fetch_retry (env : GitEnv) (url branch : Str) (subdir : Option Str)
    (hInit : env argInit = none)
    (hRemote : env (argRemote url) = none)
    (hSparse : subdir.isSome = true → env argConfig = none)
    (e1 : Str) (hFetch : env (fetchArgs branch) = some e1) :
    (branch = mainStr →
      ((∀ e2, env (fetchArgs masterStr) = some e2 →
        clone_repository env url branch subdir =
          ((match subdir with
            | some _ => [argInit, argRemote url, argConfig]
            | none => [argInit, argRemote url]) ++
            [fetchArgs mainStr, fetchArgs masterStr],
           .error (.ctx fetchFailMsg (.gitFailed (fetchArgs masterStr) e2)))) ∧
       (env (fetchArgs masterStr) = none →
        clone_repository env url branch subdir =
          ((match subdir with
            | some _ => [argInit, argRemote url, argConfig]
            | none => [argInit, argRemote url]) ++
            [fetchArgs mainStr, fetchArgs masterStr, argCheckout],
           run_git_command env argCheckout)))) ∧
    (branch ≠ mainStr →
      clone_repository env url branch subdir =
        ((match subdir with
          | some _ => [argInit, argRemote url, argConfig]
          | none => [argInit, argRemote url]) ++ [fetchArgs branch],
         .error (.ctx fetchFailMsg (.gitFailed (fetchArgs branch) e1)))) ∧
    (clone_repository env url branch subdir).1.Nodup := by
  have r1 : runGitT env argInit = ([argInit], .ok ()) := by
    simp [runGitT, run_git_command, hInit]
  have r2 : runGitT env (argRemote url) = ([argRemote url], .ok ()) := by
    simp [runGitT, run_git_command, hRemote]
  have d6 : ∀ b : Str, argRemote url ≠ fetchArgs b := by
    intro b h
    injection h with h1 _
    exact absurd h1 (by decide)
  refine ⟨?_, ?_, ?_⟩
  · intro hm
    subst hm
    have rf : runGitT env (fetchArgs mainStr) =
        ([fetchArgs mainStr], .error (.gitFailed (fetchArgs mainStr) e1)) := by
      simp [runGitT, run_git_command, hFetch]
    constructor
    · intro e2 hmas
      have rm : runGitT env (fetchArgs masterStr) =
          ([fetchArgs masterStr], .error (.gitFailed (fetchArgs masterStr) e2)) := by
        simp [runGitT, run_git_command, hmas]
      cases subdir with
      | none =>
        simp only [clone_repository, r1, r2, rf, rm, seqT, ctxT, Except.mapError]
        simp
      | some sd =>
        have rc : runGitT env argConfig = ([argConfig], .ok ()) := by
          simp [runGitT, run_git_command, hSparse (by simp)]
        simp only [clone_repository, r1, r2, rc, rf, rm, seqT, ctxT, Except.mapError]
        simp
    · intro hmas
      have rm : runGitT env (fetchArgs masterStr) = ([fetchArgs masterStr], .ok ()) := by
        simp [runGitT, run_git_command, hmas]
      cases subdir with
      | none =>
        simp only [clone_repository, r1, r2, rf, rm, seqT, ctxT, Except.mapError]
        simp [runGitT]
      | some sd =>
        have rc : runGitT env argConfig = ([argConfig], .ok ()) := by
          simp [runGitT, run_git_command, hSparse (by simp)]
        simp only [clone_repository, r1, r2, rc, rf, rm, seqT, ctxT, Except.mapError]
        simp [runGitT]
  · intro hm
    have rf : runGitT env (fetchArgs branch) =
        ([fetchArgs branch], .error (.gitFailed (fetchArgs branch) e1)) := by
      simp [runGitT, run_git_command, hFetch]
    cases subdir with
    | none =>
      simp only [clone_repository, r1, r2, rf, seqT]
      simp [hm]
    | some sd =>
      have rc : runGitT env argConfig = ([argConfig], .ok ()) := by
        simp [runGitT, run_git_command, hSparse (by simp)]
      simp only [clone_repository, r1, r2, rc, rf, seqT]
      simp [hm]
  · have d10 : fetchArgs mainStr ≠ fetchArgs masterStr := by decide
    have d11 : ¬ mainStr = masterStr := by decide
    by_cases hm : branch = mainStr
    · subst hm
      have rf : runGitT env (fetchArgs mainStr) =
          ([fetchArgs mainStr], .error (.gitFailed (fetchArgs mainStr) e1)) := by
        simp [runGitT, run_git_command, hFetch]
      cases hmas : env (fetchArgs masterStr) with
      | some e2 =>
        have rm : runGitT env (fetchArgs masterStr) =
            ([fetchArgs masterStr], .error (.gitFailed (fetchArgs masterStr) e2)) := by
          simp [runGitT, run_git_command, hmas]
        cases subdir with
        | none =>
          simp only [clone_repository, r1, r2, rf, rm, seqT, ctxT, Except.mapError]
          simp [argInit, argRemote, argConfig, fetchArgs, argCheckout, d10, d11,
            List.nodup_cons, d6 mainStr, d6 masterStr]
        | some sd =>
          have rc : runGitT env argConfig = ([argConfig], .ok ()) := by
            simp [runGitT, run_git_command, hSparse (by simp)]
          simp only [clone_repository, r1, r2, rc, rf, rm, seqT, ctxT, Except.mapError]
          simp [argInit, argRemote, argConfig, fetchArgs, argCheckout, d10, d11,
            List.nodup_cons, d6 mainStr, d6 masterStr]
      | none =>
        have rm : runGitT env (fetchArgs masterStr) = ([fetchArgs masterStr], .ok ()) := by
          simp [runGitT, run_git_command, hmas]
        cases subdir with
        | none =>
          simp only [clone_repository, r1, r2, rf, rm, seqT, ctxT, Except.mapError]
          simp [runGitT, argInit, argRemote, argConfig, fetchArgs, argCheckout, d10, d11,
            List.nodup_cons, d6 mainStr, d6 masterStr]
        | some sd =>
          have rc : runGitT env argConfig = ([argConfig], .ok ()) := by
            simp [runGitT, run_git_command, hSparse (by simp)]
          simp only [clone_repository, r1, r2, rc, rf, rm, seqT, ctxT, Except.mapError]
          simp [runGitT, argInit, argRemote, argConfig, fetchArgs, argCheckout, d10, d11,
            List.nodup_cons, d6 mainStr, d6 masterStr]
    · have rf : runGitT env (fetchArgs branch) =
          ([fetchArgs branch], .error (.gitFailed (fetchArgs branch) e1)) := by
        simp [runGitT, run_git_command, hFetch]
      cases subdir with
      | none =>
        simp only [clone_repository, r1, r2, rf, seqT]
        simp [hm, argInit, argRemote, argConfig, fetchArgs, List.nodup_cons, d6 branch]
      | some sd =>
        have rc : runGitT env argConfig = ([argConfig], .ok ()) := by
          simp [runGitT, run_git_command, hSparse (by simp)]
        simp only [clone_repository, r1, r2, rc, rf, seqT]
        simp [hm, argInit, argRemote, argConfig, fetchArgs, List.nodup_cons, d6 branch]

/-- Witness for claim C2: an environment failing only the fetch of
"main"; staging retries "master" once and proceeds to checkout. -/
theorem claim_C2_fetch_retry_witness :
    clone_repository
        (fun a => if a = fetchArgs mainStr then some ("boom").toList else none)
        ("u").toList mainStr none =
      ([argInit, argRemote ("u").toList] ++
        [fetchArgs mainStr, fetchArgs masterStr, argCheckout],
       run_git_command
         (fun a => if a = fetchArgs mainStr then some ("boom").toList else none)
         argCheckout) :=
  ((claim_C2_fetch_retry
      (fun a => if a = fetchArgs mainStr then some ("boom").toList else none)
      ("u").toList mainStr none (by decide) (by decide) (by decide)
      ("boom").toList (by decide)).1 rfl).2 (by decide)

/-- Claim C5: a run whose destination fails the guard aborts with that
guard error before the ephemeral workspace is created and before any git
subprocess is invoked: its event trace is empty. -/
theorem claim_C5_guard_first (w : World) (args : Args) (repo branch : Str)
    (path : Option Str) (e : GGError)
    (hparse : parse_input args = .ok (repo, branch, path))
    (url : Str) (hurl : build_repo_url repo = .ok url)
    (hguard : check_dest_path_safety (w.destFs (resolveDest args repo path))
      (resolveDest args repo path) = .error e) :
    run w args = ([], .error e) := by
  simp only [run, hparse, hurl, hguard]

/-- Witness for claim C5: a world whose destination path holds a regular
file makes the run abort with the is-file error and an empty trace. -/
theorem claim_C5_guard_first_witness :
    parse_input ⟨some ("o/r").toList, none, none, none, none, none⟩ =
      .ok (("o/r").toList, mainStr, none) ∧
    build_repo_url ("o/r").toList = .ok (ghUrlStr ++ ("o/r").toList ++ dotGitStr) ∧
    run ⟨fun _ => some (.file []), fun _ => none, [], none⟩
        ⟨some ("o/r").toList, none, none, none, none, none⟩ =
      ([], .error (.destIsFile ("r").toList)) :=
  ⟨by decide, by decide,
   claim_C5_guard_first ⟨fun _ => some (.file []), fun _ => none, [], none⟩
     ⟨some ("o/r").toList, none, none, none, none, none⟩
     ("o/r").toList mainStr none (.destIsFile ("r").toList) (by decide)
     (ghUrlStr ++ ("o/r").toList ++ dotGitStr) (by decide) (by decide)⟩

theorem dropWhile_eq_self_head (p : Char → Bool) (x : Str)
    (h : List.dropWhile p x = x) :
    ∀ hd, x.head? = some hd → p hd = false := by
  intro hd hh
  cases x with
  | nil => cases hh
  | cons a t =>
    have ha : a = hd := Option.some.inj hh
    subst ha
    cases hpv : p a with
    | false => rfl
    | true =>
      rw [List.dropWhile_cons, hpv] at h
      simp only [if_true] at h
      have hle : (List.dropWhile p t).length ≤ t.length :=
        (List.dropWhile_suffix p).length_le
      rw [h] at hle
      simp only [List.length_cons] at hle
      omega

theorem trimStr_getLast (l : Str) (h : trimStr l = l) (c : Char)
    (hc : isRustWhitespace c = true) : l.getLast? ≠ some c := by
  intro hlast
  have hlen : ((l.dropWhile isRustWhitespace).reverse.dropWhile
      isRustWhitespace).length = l.length := by
    have hcl := congrArg List.length h
    simpa [trimStr] using hcl
  have hle1 : (l.dropWhile isRustWhitespace).length ≤ l.length :=
    (List.dropWhile_suffix isRustWhitespace).length_le
  have hle2 : ((l.dropWhile isRustWhitespace).reverse.dropWhile
      isRustWhitespace).length ≤ (l.dropWhile isRustWhitespace).length := by
    have hh : ((l.dropWhile isRustWhitespace).reverse.dropWhile
        isRustWhitespace).length ≤ (l.dropWhile isRustWhitespace).reverse.length :=
      (List.dropWhile_suffix isRustWhitespace).length_le
    simpa using hh
  have ha : l.dropWhile isRustWhitespace = l :=
    (List.dropWhile_suffix isRustWhitespace).eq_of_length (by omega)
  have hb : (l.dropWhile isRustWhitespace).reverse.dropWhile isRustWhitespace =
      (l.dropWhile isRustWhitespace).reverse :=
    (List.dropWhile_suffix isRustWhitespace).eq_of_length (by simp; omega)
  have hhd : (l.dropWhile isRustWhitespace).reverse.head? = some c := by
    rw [List.head?_reverse, ha, hlast]
  have hw := dropWhile_eq_self_head isRustWhitespace
    (l.dropWhile isRustWhitespace).reverse hb c hhd
  rw [hw] at hc
  cases hc

theorem lineMatches_self (norm : Str) (h1 : norm ≠ []) (h2 : norm.head? ≠ some '#')
    (h4 : trimStr norm = norm) : lineMatches norm norm = true := by
  simp only [lineMatches]
  rw [h4]
  rw [if_neg h2, if_neg h1, if_pos (Or.inl rfl)]

theorem linesOf_append_entry (c1 norm : Str) (h3 : '\n' ∉ norm) :
    linesOf (c1 ++ '\n' :: (addedComment ++ '\n' :: (norm ++ ['\n']))) =
      (splitChar '\n' c1 ++ [addedComment, norm]).map
        (fun l => if l.getLast? = some '\r' then l.dropLast else l) := by
  have hs : splitChar '\n' (c1 ++ '\n' :: (addedComment ++ '\n' :: (norm ++ ['\n']))) =
      (splitChar '\n' c1 ++ [addedComment, norm]) ++ [[]] := by
    rw [splitChar_append, splitChar_append]
    have hA : splitChar '\n' addedComment = [addedComment] :=
      splitChar_no_sep _ _ (by decide)
    have hN : splitChar '\n' (norm ++ ['\n']) = [norm, []] := by
      have he : norm ++ ['\n'] = norm ++ '\n' :: [] := rfl
      rw [he, splitChar_append, splitChar_no_sep _ _ h3]
      rfl
    rw [hA, hN]
    simp
  simp only [linesOf]
  rw [hs, List.getLast?_concat]
  rw [if_pos rfl, List.dropLast_concat]

/-- Claim C9 counterexample: for the destination string "#x" and an
existing empty ignore file, a second invocation appends the entry again,
because the registered line is skipped as a comment during the scan — the
registrar is not idempotent for every destination string. -/
theorem claim_C9_gitignore_counterexample :
    add_to_gitignore ("#x").toList (add_to_gitignore ("#x").toList (some [])) ≠
      add_to_gitignore ("#x").toList (some []) := by decide

/-- Claim C9 (amended): the Ignore Registrar is idempotent — and a file
already holding a matching non-comment, non-blank line is left unchanged
— whenever the normalized destination is non-empty, does not start with
the comment character, contains no newline, and equals its own trim. -/
theorem claim_C9_gitignore_amended (dest : Str) (st : Option Str)
    (h1 : trimStartList dotSlashStr dest ≠ [])
    (h2 : (trimStartList dotSlashStr dest).head? ≠ some '#')
    (h3 : '\n' ∉ trimStartList dotSlashStr dest)
    (h4 : trimStr (trimStartList dotSlashStr dest) = trimStartList dotSlashStr dest) :
    add_to_gitignore dest (add_to_gitignore dest st) = add_to_gitignore dest st ∧
    ∀ c : Str, (linesOf c).any (lineMatches (trimStartList dotSlashStr dest)) = true →
      add_to_gitignore dest (some c) = some c := by
  have hreg : ∀ c : Str,
      (linesOf c).any (lineMatches (trimStartList dotSlashStr dest)) = true →
      add_to_gitignore dest (some c) = some c := by
    intro c hc
    simp only [add_to_gitignore]
    rw [if_pos hc]
  refine ⟨?_, hreg⟩
  cases st with
  | none => rfl
  | some c =>
    by_cases hany : (linesOf c).any (lineMatches (trimStartList dotSlashStr dest)) = true
    · rw [hreg c hany, hreg c hany]
    · have e1 : add_to_gitignore dest (some c) =
          some ((if c ≠ [] ∧ c.getLast? ≠ some '\n' then c ++ ['\n'] else c) ++
            '\n' :: (addedComment ++ '\n' :: (trimStartList dotSlashStr dest ++ ['\n']))) := by
        simp only [add_to_gitignore]
        rw [if_neg hany]
      rw [e1]
      apply hreg
      rw [linesOf_append_entry _ _ h3]
      have hcr : (trimStartList dotSlashStr dest).getLast? ≠ some '\r' :=
        trimStr_getLast _ h4 '\r' (by decide)
      simp [List.any_append, lineMatches_self _ h1 h2 h4, hcr]

/-- Witness for the amended claim C9: registering "vendor" into an empty
ignore file twice leaves the file as after the first registration. -/
theorem claim_C9_gitignore_amended_witness :
    (trimStartList dotSlashStr ("vendor").toList ≠ [] ∧
     (trimStartList dotSlashStr ("vendor").toList).head? ≠ some '#' ∧
     '\n' ∉ trimStartList dotSlashStr ("vendor").toList ∧
     trimStr (trimStartList dotSlashStr ("vendor").toList) =
       trimStartList dotSlashStr ("vendor").toList) ∧
    add_to_gitignore ("vendor").toList
        (add_to_gitignore ("vendor").toList (some [])) =
      add_to_gitignore ("vendor").toList (some []) :=
  ⟨⟨by decide, by decide, by decide, by decide⟩,
   (claim_C9_gitignore_amended ("vendor").toList (some []) (by decide) (by decide)
      (by decide) (by decide)).1⟩

end GitGet
